import Mathlib

/-!
Verification of the htsqs messaging core: a shallow embedding of the
SNS batch publisher (`publisher/sns/sns.go`) and the SQS subscriber pool
(`subscriber/subscriber.go`), together with proofs of the specified
properties.  External collaborators (JSON serialization, the SNS/SQS
transport) are explicit function parameters, so theorems quantify over
their behaviour.
-/

namespace Htsqs

/-- A message to publish in a batch, `models.Message`: a caller-supplied
correlation `ID` plus an arbitrary payload `Data`.  The payload type is
abstract; `json.Marshal` is modelled by an explicit `marshal` argument of
the publishing functions. -/
structure MessageT (α : Type) where
  ID : String
  Data : α
deriving DecidableEq

/-- Modelled from the spec: the sub-batch size limit `constants.MaxBatchSize`
(the `constants` package is not among the sources under `src/`).  The spec
and the code comment on `PublishBatch` both fix it at 10: "AWS SNS batch
publish can only handle a maximum payload of 10 messages". -/
def MaxBatchSize : Nat := 10

/-- Modelled from the spec: `constants.GenericPublishError`, the generic
fallback text recorded when a failed batch entry carries no message (the
`constants` package is not under `src/`; only the existence of one fixed
fallback string matters to the claims, not its exact text). -/
def GenericPublishError : String := "generic publish error"

/-- One entry of a batch publish request, `sns.PublishBatchRequestEntry`
restricted to the fields the code sets: `Id` and `Message` are always set
by `PublishBatch` (so they are plain strings here), `MessageGroupId` only
for FIFO topics. -/
structure PublishBatchRequestEntry where
  Id : String
  Message : String
  MessageGroupId : Option String
deriving DecidableEq

/-- A failed entry of a batch response, `sns.BatchResultErrorEntry`
restricted to the fields the code reads.  Both fields are pointers in the
AWS SDK and may be nil, hence `Option`. -/
structure BatchResultErrorEntry where
  Id : Option String
  Message : Option String
deriving DecidableEq

/-- A succeeded entry of a batch response, `sns.PublishBatchResultEntry`
restricted to the field the code reads (a nilable pointer). -/
structure PublishBatchResultEntry where
  Id : Option String
deriving DecidableEq

/-- A batch response, `sns.PublishBatchOutput`: the per-entry outcomes.
The list elements are pointers in the SDK and may individually be nil. -/
structure PublishBatchOutput where
  Failed : List (Option BatchResultErrorEntry)
  Successful : List (Option PublishBatchResultEntry)
deriving DecidableEq

/-- Decides whether `l` starts with the pattern `pat`. -/
def listStartsWith [DecidableEq α] : List α → List α → Bool
  | [], _ => true
  | _ :: _, [] => false
  | x :: xs, y :: ys => if x = y then listStartsWith xs ys else false

/-- Decides whether some contiguous segment of `l` equals `pat` — the
semantics of Go's `strings.Contains` on the underlying rune sequences. -/
def listContainsSeq [DecidableEq α] (pat : List α) : List α → Bool
  | [] => listStartsWith pat []
  | y :: ys => if listStartsWith pat (y :: ys) then true else listContainsSeq pat ys

/-- The FIFO-topic naming check
`strings.Contains(strings.ToLower(arn), "fifo")` (sns.go lines 56 and 86).
Go lowercases the whole identifier and looks for the substring "fifo";
lowercasing is modelled per character (topic ARNs are ASCII, where
`Char.toLower` agrees with Go's `strings.ToLower`). -/
def containsFifo (topicArn : String) : Bool :=
  listContainsSeq "fifo".toList (topicArn.toList.map Char.toLower)

/-- Go map write `publishResult[id] = v` on an association-list model of
`map[string]error`: overwrite the binding if the key is present, append it
otherwise.  Keys therefore stay pairwise distinct when they start so.
The value `none` models a nil error (success), `some msg` an error. -/
def mapInsert : List (String × Option String) → String → Option String →
    List (String × Option String)
  | [], k, v => [(k, v)]
  | (k', v') :: rest, k, v =>
      if k' = k then (k, v) :: rest else (k', v') :: mapInsert rest k v

/-- The loop over `response.Failed` (sns.go 124-133): entries that are nil
pointers or have a nil `Id` are skipped; otherwise the entry's message (or
the generic fallback) is recorded under its id and the error counter is
incremented. -/
def processFailedEntries :
    List (Option BatchResultErrorEntry) → List (String × Option String) → Nat →
      List (String × Option String) × Nat
  | [], m, errorCount => (m, errorCount)
  | none :: rest, m, errorCount => processFailedEntries rest m errorCount
  | some errEntry :: rest, m, errorCount =>
      match errEntry.Id with
      | none => processFailedEntries rest m errorCount
      | some id =>
          let errMsg := match errEntry.Message with
            | some s => s
            | none => GenericPublishError
          processFailedEntries rest (mapInsert m id (some errMsg)) (errorCount + 1)

/-- The loop over `response.Successful` (sns.go 135-140): entries that are
nil pointers or have a nil `Id` are skipped; otherwise a nil error is
recorded under the id and the success counter is incremented. -/
def processSuccessfulEntries :
    List (Option PublishBatchResultEntry) → List (String × Option String) → Nat →
      List (String × Option String) × Nat
  | [], m, successCount => (m, successCount)
  | none :: rest, m, successCount => processSuccessfulEntries rest m successCount
  | some successEntry :: rest, m, successCount =>
      match successEntry.Id with
      | none => processSuccessfulEntries rest m successCount
      | some id => processSuccessfulEntries rest (mapInsert m id none) (successCount + 1)

/-- The inner entry-building loop of `PublishBatch` (sns.go 95-113):
marshal each chunk message in order; the first marshal failure aborts with
that error (the Go code returns from inside the loop); otherwise an entry
with the message id, the serialized body and, under `isFifo`, the default
group id is produced. -/
def buildEntries (marshal : α → Except String String) (isFifo : Bool) :
    List (MessageT α) → Except String (List PublishBatchRequestEntry)
  | [] => .ok []
  | msg :: rest =>
      match marshal msg.Data with
      | .error e => .error e
      | .ok b =>
          let requestEntry : PublishBatchRequestEntry :=
            { Id := msg.ID, Message := b,
              MessageGroupId := if isFifo then some "default" else none }
          match buildEntries marshal isFifo rest with
          | .error e => .error e
          | .ok es => .ok (requestEntry :: es)

/-- The mutable accumulators of `PublishBatch`, plus two ghost traces used
only in specifications: `calls` records each submitted chunk's request
entries in submission order, `outputs` each successful submission's
response. -/
structure BatchState where
  publishResult : List (String × Option String)
  successCount : Nat
  errorCount : Nat
  calls : List (List PublishBatchRequestEntry)
  outputs : List PublishBatchOutput
deriving DecidableEq

/-- The values `PublishBatch` returns (result map, success count, error
count, fatal error), plus the ghost traces carried by `BatchState`. -/
structure BatchResult extends BatchState where
  err : Option String
deriving DecidableEq

/-- The initial accumulator state of a `PublishBatch` call. -/
def batchState0 : BatchState :=
  { publishResult := [], successCount := 0, errorCount := 0, calls := [], outputs := [] }

/-- Accumulator update for one successful submission (sns.go 124-142):
process `Failed` first, then `Successful`; record the ghost traces. -/
def updateState (st : BatchState) (requestEntries : List PublishBatchRequestEntry)
    (response : PublishBatchOutput) : BatchState :=
  let fr := processFailedEntries response.Failed st.publishResult st.errorCount
  let sr := processSuccessfulEntries response.Successful fr.1 st.successCount
  { publishResult := sr.1, successCount := sr.2, errorCount := fr.2,
    calls := st.calls ++ [requestEntries], outputs := st.outputs ++ [response] }

/-- The main loop of `PublishBatch` (sns.go 91-148), one recursive call per
iteration.  `numPublishedMessages`, `start` and `end_` mirror the Go local
variables; the transport is an explicit function `send` of the submission
index and the chunk's entries; the batch limit `B` is a parameter that the
entry point fixes to `MaxBatchSize`.  `fuel` bounds the iteration count so
the function is total: `PublishBatch` supplies `msgs.length + 1`, which
`PublishBatch_eq_processChunks` proves sufficient (`none` is returned only
on fuel exhaustion, never from the entry point). -/
def publishBatchLoop (marshal : α → Except String String)
    (send : Nat → List PublishBatchRequestEntry → Except String PublishBatchOutput)
    (isFifo : Bool) (B : Nat) (msgs : List (MessageT α)) :
    Nat → Nat → Nat → Nat → BatchState → Option BatchResult
  | 0, _, _, _, _ => none
  | fuel + 1, numPublishedMessages, start, end_, st =>
      if numPublishedMessages < msgs.length then
        match buildEntries marshal isFifo ((msgs.drop start).take (end_ - start)) with
        | .error e => some { st with err := some e }
        | .ok requestEntries =>
            match send st.calls.length requestEntries with
            | .error e =>
                some { st with calls := st.calls ++ [requestEntries], err := some e }
            | .ok response =>
                publishBatchLoop marshal send isFifo B msgs fuel
                  (numPublishedMessages + requestEntries.length) end_
                  (min (end_ + B) msgs.length) (updateState st requestEntries response)
      else some { st with err := none }

/-- Function `Publisher.PublishBatch` (sns.go 72-151): computes the FIFO flag from
the configured topic ARN, then runs the chunking loop from the initial Go
locals (`numPublishedMessages = 0`, `start = 0`, `end` capped to the input
length). -/
def PublishBatch (marshal : α → Except String String)
    (send : Nat → List PublishBatchRequestEntry → Except String PublishBatchOutput)
    (topicArn : String) (msgs : List (MessageT α)) : Option BatchResult :=
  let isFifo := containsFifo topicArn
  publishBatchLoop marshal send isFifo MaxBatchSize msgs (msgs.length + 1) 0 0
    (min MaxBatchSize msgs.length) batchState0

/-- The input of a single publish, `sns.PublishInput` restricted to the
fields the code sets. -/
structure PublishInput where
  Message : String
  TopicArn : String
  MessageGroupId : Option String
deriving DecidableEq

/-- Function `Publisher.Publish` (sns.go 42-63): marshal the payload (an error is
returned with no call made), build the input, attach the default group id
when the topic ARN names a FIFO topic, submit.  Returns the constructed
input (as a ghost trace; `none` when no call was made) and the returned
error. -/
def Publish (marshal : α → Except String String)
    (sendOne : PublishInput → Option String)
    (topicArn : String) (msg : α) : Option PublishInput × Option String :=
  match marshal msg with
  | .error e => (none, some e)
  | .ok b =>
      let input0 : PublishInput :=
        { Message := b, TopicArn := topicArn, MessageGroupId := none }
      let input :=
        if containsFifo topicArn then
          { input0 with MessageGroupId := some "default" }
        else input0
      (some input, sendOne input)

/-- Chunk-list reformulation of the `PublishBatch` loop, used for proofs:
the per-iteration body of the loop folded over an explicit list of chunks.
`PublishBatch_eq_processChunks` proves the fuelled loop equal to it. -/
def processChunks (marshal : α → Except String String)
    (send : Nat → List PublishBatchRequestEntry → Except String PublishBatchOutput)
    (isFifo : Bool) : BatchState → List (List (MessageT α)) → BatchResult
  | st, [] => { st with err := none }
  | st, c :: rest =>
      match buildEntries marshal isFifo c with
      | .error e => { st with err := some e }
      | .ok requestEntries =>
          match send st.calls.length requestEntries with
          | .error e => { st with calls := st.calls ++ [requestEntries], err := some e }
          | .ok response =>
              processChunks marshal send isFifo (updateState st requestEntries response) rest

/-- Consecutive chunks of at most `B` elements, in input order — the
spec's "partition items into consecutive chunks of at most MaxBatchSize",
stated independently of the loop so the loop can be compared against it. -/
def specChunks (B : Nat) (l : List α) : List (List α) :=
  match l with
  | [] => []
  | x :: xs => (x :: xs.take (B - 1)) :: specChunks B (xs.drop (B - 1))
termination_by l.length
decreasing_by simp only [List.length_drop, List.length_cons]; omega

/-- Ids of the valid (non-nil pointer, non-nil id) entries of a `Failed`
list, in order. -/
def failedIdsOf (resp : List (Option BatchResultErrorEntry)) : List String :=
  resp.filterMap (fun x => x.bind BatchResultErrorEntry.Id)

/-- Ids of the valid (non-nil pointer, non-nil id) entries of a
`Successful` list, in order. -/
def successIdsOf (resp : List (Option PublishBatchResultEntry)) : List String :=
  resp.filterMap (fun x => x.bind PublishBatchResultEntry.Id)

/-- Ids of the valid (non-nil pointer, non-nil id) entries of a response's
`Failed` list, in order. -/
def validFailedIds (o : PublishBatchOutput) : List String := failedIdsOf o.Failed

/-- Ids of the valid (non-nil pointer, non-nil id) entries of a response's
`Successful` list, in order. -/
def validSuccessIds (o : PublishBatchOutput) : List String := successIdsOf o.Successful

/-- All ids a response mentions through valid entries. -/
def validIds (o : PublishBatchOutput) : List String :=
  validFailedIds o ++ validSuccessIds o

/-- Number of valid (non-nil pointer, non-nil id) failed entries of a
response — the amount by which one response advances the error counter. -/
def validFailedCount (o : PublishBatchOutput) : Nat := (validFailedIds o).length

/-- Number of valid (non-nil pointer, non-nil id) succeeded entries of a
response — the amount by which one response advances the success
counter. -/
def validSuccessCount (o : PublishBatchOutput) : Nat := (validSuccessIds o).length

/-- A transport that acknowledges exactly the submitted entries as
succeeded, for concrete scenarios. -/
def sendEcho : Nat → List PublishBatchRequestEntry → Except String PublishBatchOutput :=
  fun _ es => .ok { Failed := [],
                    Successful := es.map (fun ent => some { Id := some ent.Id }) }

/-- A serialization that always succeeds, for concrete scenarios. -/
def marshalTriv : Unit → Except String String := fun _ => .ok "m"

/-- A serialization that always fails, for concrete scenarios. -/
def marshalFail : Unit → Except String String := fun _ => .error "boom"

/-- A transport whose submissions always succeed with an empty response,
for concrete scenarios. -/
def sendTriv : Nat → List PublishBatchRequestEntry → Except String PublishBatchOutput :=
  fun _ _ => .ok { Failed := [], Successful := [] }

/-- A single-publish transport that always succeeds, for concrete
scenarios. -/
def sendOneTriv : PublishInput → Option String := fun _ => none

/-- Twenty-five messages, the spec's chunking scenario input. -/
def msgs25 : List (MessageT Unit) := List.replicate 25 { ID := "m", Data := () }

/-- A single one-message input, for concrete scenarios. -/
def msgs1 : List (MessageT Unit) := [{ ID := "a", Data := () }]

/-- A transport that reports success for an id that was never submitted
("b"), for concrete scenarios. -/
def sendForeign : Nat → List PublishBatchRequestEntry → Except String PublishBatchOutput :=
  fun _ _ => .ok { Failed := [], Successful := [some { Id := some "b" }] }

/-- A transport whose response mixes nil entry pointers and nil ids with
one valid success entry, for concrete scenarios. -/
def sendNils : Nat → List PublishBatchRequestEntry → Except String PublishBatchOutput :=
  fun _ _ => .ok { Failed := [none, some { Id := none, Message := some "err" }],
                   Successful := [some { Id := none }, none, some { Id := some "a" }] }

/-- Subscriber configuration (subscriber.go `Config`): only the fields the
settled claims depend on are modelled — the AWS session, queue URL, wait
and visibility durations and the logger do not influence the latch
protocol, the poller count or the backoff behaviour. `NumConsumers` is a
Go `int`. -/
structure SubConfig where
  MaxMessagesPerBatch : Option Int
  NumConsumers : Int
deriving DecidableEq

/-- The package default for the number of consumers (subscriber.go 17-20). -/
def defaultNumConsumers : Int := 3

/-- The NumConsumers defaulting of `defaultSubscriberConfig`
(subscriber.go 185-187): only an exact zero is replaced by the default;
any other value — negative values included — passes through unchanged. -/
def defaultSubscriberConfig (cfg : SubConfig) : SubConfig :=
  { cfg with
    NumConsumers :=
      if cfg.NumConsumers = 0 then defaultNumConsumers else cfg.NumConsumers }

/-- The two one-way latches of a `Subscriber` (subscriber.go 81-87).  The
`stop` channel's content is implicit in `consumed`: the only send on it is
performed by the supervising goroutine (subscriber.go 159-165), which
exists iff a `Consume` call succeeded, i.e. iff `consumed` is set. -/
structure SubscriberState where
  consumed : Bool
  stopped : Bool
deriving DecidableEq

/-- The state `New` creates: both latches unset, empty stop channel. -/
def initialSubscriberState : SubscriberState := { consumed := false, stopped := false }

/-- Function `New` (subscriber.go 195-198): apply the config defaults and create a
fresh subscriber (the transport construction has no modelled effect). -/
def NewSubscriber (cfg : SubConfig) : SubConfig × SubscriberState :=
  (defaultSubscriberConfig cfg, initialSubscriberState)

/-- The number of poller goroutines spawned by
`for i := 1; i <= s.cfg.NumConsumers; i++` (subscriber.go 120): the number
of loop iterations, which is zero when `NumConsumers ≤ 0`. -/
def numPollersSpawned (n : Int) : Nat := n.toNat

/-- Function `Subscriber.Consume` (subscriber.go 91-98 and 120-157): the stopped
latch is checked first, then the consumed latch is atomically set; on
success the poller goroutines are spawned.  Returns the updated latch
state and the number of pollers spawned.  Channel allocation and the
poller loop bodies are modelled separately (`pollerBackoffStep`). -/
def Consume (cfg : SubConfig) (s : SubscriberState) :
    Except String (SubscriberState × Nat) :=
  if s.stopped then .error "SQS subscriber is already stopped"
  else if s.consumed then .error "SQS subscriber is already running"
  else .ok ({ s with consumed := true }, numPollersSpawned cfg.NumConsumers)

/-- The possible behaviours of a `Stop` call. -/
inductive StopOutcome
  | alreadyStopped
  | returns (e : Option String)
  | blocksForever
deriving DecidableEq

/-- Function `Subscriber.Stop` (subscriber.go 173-178): `setTrue` on the stopped
latch fails iff the latch was already set, yielding the "already stopped"
error.  Otherwise `Stop` executes `<-s.stop`.  The only send on `s.stop`
is the `nil` the supervising goroutine sends once all pollers exit
(subscriber.go 159-165), and that goroutine is spawned only by a
successful `Consume`; so when `consumed` is set the receive eventually
yields `nil` (pollers re-check the latch after their in-flight fetch and
exit), and when `consumed` is unset there is no sender — the buffered
channel created by `New` stays empty forever and the receive never
completes. -/
def Stop (s : SubscriberState) : StopOutcome × SubscriberState :=
  if s.stopped then (.alreadyStopped, s)
  else if s.consumed then (.returns none, { s with stopped := true })
  else (.blocksForever, { s with stopped := true })

/-- A call a client can make on a subscriber. -/
inductive SubOp
  | consumeOp
  | stopOp
deriving DecidableEq

/-- The latch-state evolution of a subscriber under one client call
(failed calls leave the state unchanged, as in the code: the latches are
only written by the successful CAS). -/
def subApply (cfg : SubConfig) (s : SubscriberState) : SubOp → SubscriberState
  | .consumeOp =>
      match Consume cfg s with
      | .ok r => r.1
      | .error _ => s
  | .stopOp => (Stop s).2

/-- The counter and parameters of jpillora/backoff's `Backoff` struct, the
third-party dependency the subscriber configures (subscriber.go 113-118).
Go's `float64` durations are modelled as rationals (in nanoseconds); for
the configuration under verification — `Factor` 1 and integral `Min` and
`Max` — the floating-point computation is exact, so nothing is lost.
`attempt` is the consecutive-failure counter advanced by `Duration`. -/
structure Backoff where
  attempt : Nat
  Factor : ℚ
  Jitter : Bool
  Min : ℚ
  Max : ℚ
deriving DecidableEq

/-- jpillora/backoff's `Backoff.ForAttempt`: the duration
`min · factor^attempt`, with non-positive parameters replaced by defaults
(100ms, 10s, factor 2), jitter randomisation (the random draw
`r ∈ [0, 1)` of `rand.Float64()` is an explicit parameter; `r = 1`
recovers the jitterless value), the guard against values above
`maxInt64 - 512`, truncation to an integral number of nanoseconds
(`time.Duration(durf)`), and clamping into `[min, max]`. -/
def forAttempt (b : Backoff) (r : ℚ) (attempt : Nat) : ℚ :=
  let mi : ℚ := if b.Min ≤ 0 then 100 * 1000000 else b.Min
  let ma : ℚ := if b.Max ≤ 0 then 10 * 1000000000 else b.Max
  if ma ≤ mi then ma
  else
    let factor : ℚ := if b.Factor ≤ 0 then 2 else b.Factor
    let durf : ℚ := mi * factor ^ attempt
    let durf : ℚ := if b.Jitter then r * (durf - mi) + mi else durf
    if (9223372036854775807 - 512 : ℚ) < durf then 9223372036854775807
    else
      let dur : ℚ := (⌊durf⌋ : ℚ)
      if dur < mi then mi else if ma < dur then ma else dur

/-- jpillora/backoff's `Backoff.Duration`: return `ForAttempt` at the
current counter and advance the counter — the only mutation of the
struct the subscriber ever performs (no `Reset` call appears in
subscriber.go). -/
def Backoff.Duration (b : Backoff) (r : ℚ) : ℚ × Backoff :=
  (forAttempt b r b.attempt, { b with attempt := b.attempt + 1 })

/-- The `Backoff` literal `Consume` passes by value to every poller
goroutine (subscriber.go 113-118 and 122): Factor 1, Min one second,
Max thirty seconds, jitter enabled, counter at its base state. -/
def backoffCounter : Backoff :=
  { attempt := 0, Factor := 1, Jitter := true,
    Min := 1000000000, Max := 30 * 1000000000 }

/-- The outcome of one `ReceiveMessage` call as seen by a poller loop
iteration. -/
inductive FetchResult
  | fetchError
  | fetchOk (numMessages : Nat)
deriving DecidableEq

/-- Whether a fetch outcome is the error case. -/
def FetchResult.isError : FetchResult → Bool
  | .fetchError => true
  | .fetchOk _ => false

/-- The effect of one poller-loop iteration on the poller's private
backoff counter (subscriber.go 129-156): a fetch error sleeps
`backoffCfg.Duration()`, advancing the counter; a successful fetch leaves
the counter untouched — the loop contains no `Reset()` call.  Returns the
slept duration, if any, and the new counter. -/
def pollerBackoffStep (b : Backoff) (r : ℚ) : FetchResult → Option ℚ × Backoff
  | .fetchError =>
      let d := Backoff.Duration b r
      (some d.1, d.2)
  | .fetchOk _ => (none, b)

/-- The poller's backoff counter after a sequence of fetch outcomes. -/
def pollerBackoffRun (b : Backoff) (r : ℚ) : List FetchResult → Backoff
  | [] => b
  | fr :: rest => pollerBackoffRun (pollerBackoffStep b r fr).2 r rest

theorem specChunks_nil (B : Nat) : specChunks B ([] : List α) = [] := by
  rw [specChunks]

theorem specChunks_cons (B : Nat) (x : α) (xs : List α) :
    specChunks B (x :: xs) =
      (x :: xs.take (B - 1)) :: specChunks B (xs.drop (B - 1)) := by
  rw [specChunks]

theorem specChunks_cons_of_pos (B : Nat) (hB : 1 ≤ B) (x : α) (xs : List α) :
    specChunks B (x :: xs) = (x :: xs).take B :: specChunks B ((x :: xs).drop B) := by
  obtain ⟨k, rfl⟩ : ∃ k, B = k + 1 := ⟨B - 1, by omega⟩
  simp [specChunks_cons]

theorem specChunks_eq_of_ne_nil (B : Nat) (hB : 1 ≤ B) (l : List α) (hl : l ≠ []) :
    specChunks B l = l.take B :: specChunks B (l.drop B) := by
  cases l with
  | nil => exact absurd rfl hl
  | cons x xs => exact specChunks_cons_of_pos B hB x xs

theorem flatten_specChunks (B : Nat) (l : List α) : (specChunks B l).flatten = l := by
  suffices h : ∀ (n : Nat) (l : List α), l.length ≤ n → (specChunks B l).flatten = l from
    h l.length l le_rfl
  intro n
  induction n with
  | zero =>
    intro l hl
    cases l with
    | nil => simp [specChunks_nil]
    | cons x xs => simp at hl
  | succ n ih =>
    intro l hl
    cases l with
    | nil => simp [specChunks_nil]
    | cons x xs =>
      rw [specChunks_cons]
      have hrec : (specChunks B (xs.drop (B - 1))).flatten = xs.drop (B - 1) :=
        ih (xs.drop (B - 1)) (by simp only [List.length_drop]; simp at hl; omega)
      simp [hrec, List.take_append_drop]

theorem length_specChunks (B : Nat) (hB : 1 ≤ B) (l : List α) :
    (specChunks B l).length = (l.length + B - 1) / B := by
  suffices h : ∀ (n : Nat) (l : List α), l.length ≤ n →
      (specChunks B l).length = (l.length + B - 1) / B from h l.length l le_rfl
  intro n
  induction n with
  | zero =>
    intro l hl
    cases l with
    | nil =>
      rw [specChunks_nil]
      simp [Nat.div_eq_of_lt (show B - 1 < B by omega)]
    | cons x xs => simp at hl
  | succ n ih =>
    intro l hl
    cases l with
    | nil =>
      rw [specChunks_nil]
      simp [Nat.div_eq_of_lt (show B - 1 < B by omega)]
    | cons x xs =>
      rw [specChunks_cons]
      have hrec : (specChunks B (xs.drop (B - 1))).length = ((xs.drop (B - 1)).length + B - 1) / B :=
        ih (xs.drop (B - 1)) (by simp only [List.length_drop]; simp at hl; omega)
      simp only [List.length_cons, hrec, List.length_drop]
      rcases Nat.le_total (B - 1) xs.length with h | h
      · have h1 : xs.length - (B - 1) + B - 1 = xs.length := by omega
        have h2 : xs.length + 1 + B - 1 = xs.length - (B - 1) + B - 1 + B := by omega
        rw [h1, h2, Nat.add_div_right _ (by omega : 0 < B), h1]
      · have h1 : xs.length - (B - 1) = 0 := by omega
        rw [h1]
        have h3 : (0 + B - 1) / B = 0 := Nat.div_eq_of_lt (by omega)
        rw [h3]
        have h5 : (xs.length + 1 + B - 1) / B = 1 :=
          Nat.div_eq_of_lt_le (by omega : 1 * B ≤ xs.length + 1 + B - 1)
            (by omega : xs.length + 1 + B - 1 < (1 + 1) * B)
        omega

theorem length_le_of_mem_specChunks (B : Nat) (hB : 1 ≤ B) (l : List α) :
    ∀ c ∈ specChunks B l, c.length ≤ B := by
  suffices h : ∀ (n : Nat) (l : List α), l.length ≤ n →
      ∀ c ∈ specChunks B l, c.length ≤ B from h l.length l le_rfl
  intro n
  induction n with
  | zero =>
    intro l hl
    cases l with
    | nil => simp [specChunks_nil]
    | cons x xs => simp at hl
  | succ n ih =>
    intro l hl
    cases l with
    | nil => simp [specChunks_nil]
    | cons x xs =>
      rw [specChunks_cons]
      intro c hc
      rcases List.mem_cons.mp hc with rfl | hc
      · simp only [List.length_cons]
        have := List.length_take_le (B - 1) xs
        omega
      · exact ih (xs.drop (B - 1)) (by simp only [List.length_drop]; simp at hl; omega) c hc

theorem flatten_take_specChunks (B : Nat) (hB : 1 ≤ B) (l : List α) :
    ∀ k, ((specChunks B l).take k).flatten = l.take (k * B) := by
  suffices h : ∀ (n : Nat) (l : List α), l.length ≤ n →
      ∀ k, ((specChunks B l).take k).flatten = l.take (k * B) from h l.length l le_rfl
  intro n
  induction n with
  | zero =>
    intro l hl k
    cases l with
    | nil => simp [specChunks_nil]
    | cons x xs => simp at hl
  | succ n ih =>
    intro l hl k
    cases l with
    | nil => simp [specChunks_nil]
    | cons x xs =>
      cases k with
      | zero => simp
      | succ j =>
        rw [specChunks_cons_of_pos B hB]
        have hrec : ((specChunks B ((x :: xs).drop B)).take j).flatten
            = ((x :: xs).drop B).take (j * B) :=
          ih ((x :: xs).drop B)
            (by simp only [List.length_drop, List.length_cons]; simp at hl; omega) j
        simp only [List.take_succ_cons, List.flatten_cons, hrec]
        have hmul : (j + 1) * B = B + j * B := by ring
        rw [hmul, List.take_add]

theorem buildEntries_ok_of_forall (marshal : α → Except String String) (isFifo : Bool)
    (c : List (MessageT α)) (h : ∀ m ∈ c, (marshal m.Data).isOk = true) :
    ∃ es, buildEntries marshal isFifo c = .ok es := by
  induction c with
  | nil => exact ⟨[], rfl⟩
  | cons m rest ih =>
    obtain ⟨b, hb⟩ : ∃ b, marshal m.Data = .ok b := by
      cases hm : marshal m.Data with
      | error e =>
        have := h m (List.mem_cons_self m rest)
        rw [hm] at this
        simp [Except.isOk, Except.toBool] at this
      | ok b => exact ⟨b, rfl⟩
    obtain ⟨es, hes⟩ := ih (fun x hx => h x (List.mem_cons_of_mem m hx))
    exact ⟨_, by rw [buildEntries, hb, hes]⟩

theorem buildEntries_ok_spec (marshal : α → Except String String) (isFifo : Bool) :
    ∀ (c : List (MessageT α)) es, buildEntries marshal isFifo c = .ok es →
      es.length = c.length ∧ es.map PublishBatchRequestEntry.Id = c.map MessageT.ID ∧
      ∀ ent ∈ es, ent.MessageGroupId = (if isFifo then some "default" else none) := by
  intro c
  induction c with
  | nil =>
    intro es hes
    rw [buildEntries] at hes
    cases hes
    simp
  | cons m rest ih =>
    intro es hes
    rw [buildEntries] at hes
    cases hm : marshal m.Data with
    | error e => rw [hm] at hes; cases hes
    | ok b =>
      rw [hm] at hes
      cases hrest : buildEntries marshal isFifo rest with
      | error e => simp [hrest] at hes
      | ok es0 =>
        simp only [hrest] at hes
        cases hes
        obtain ⟨ih1, ih2, ih3⟩ := ih es0 hrest
        refine ⟨by simp [ih1], by simp [ih2], ?_⟩
        intro ent hent
        rcases List.mem_cons.mp hent with rfl | hent
        · rfl
        · exact ih3 ent hent

theorem buildEntries_error_of (marshal : α → Except String String) (isFifo : Bool) :
    ∀ (pre : List (MessageT α)) (bad : MessageT α) (post : List (MessageT α)) (e : String),
      (∀ m ∈ pre, (marshal m.Data).isOk = true) → marshal bad.Data = .error e →
      buildEntries marshal isFifo (pre ++ bad :: post) = .error e := by
  intro pre
  induction pre with
  | nil =>
    intro bad post e _ hbad
    rw [List.nil_append, buildEntries, hbad]
  | cons m rest ih =>
    intro bad post e h hbad
    obtain ⟨b, hb⟩ : ∃ b, marshal m.Data = .ok b := by
      cases hm : marshal m.Data with
      | error e0 =>
        have := h m (List.mem_cons_self m rest)
        rw [hm] at this
        simp [Except.isOk, Except.toBool] at this
      | ok b => exact ⟨b, rfl⟩
    rw [List.cons_append, buildEntries, hb,
      ih bad post e (fun x hx => h x (List.mem_cons_of_mem m hx)) hbad]

theorem take_min_length (l : List α) (n : Nat) : l.take (min n l.length) = l.take n := by
  rcases Nat.le_total n l.length with h | h
  · rw [Nat.min_eq_left h]
  · rw [Nat.min_eq_right h, List.take_of_length_le h, List.take_length]

theorem publishBatchLoop_eq_processChunks (marshal : α → Except String String)
    (send : Nat → List PublishBatchRequestEntry → Except String PublishBatchOutput)
    (isFifo : Bool) (B : Nat) (hB : 1 ≤ B) (msgs : List (MessageT α)) :
    ∀ (fuel start : Nat) (st : BatchState), start ≤ msgs.length → msgs.length - start < fuel →
      publishBatchLoop marshal send isFifo B msgs fuel start start
          (min (start + B) msgs.length) st
        = some (processChunks marshal send isFifo st (specChunks B (msgs.drop start))) := by
  intro fuel
  induction fuel with
  | zero => intro start st h1 h2; omega
  | succ fuel ih =>
    intro start st h1 h2
    by_cases hlt : start < msgs.length
    · have hne : msgs.drop start ≠ [] := by
        intro hcon
        have hlen : (msgs.drop start).length = msgs.length - start := List.length_drop _ _
        rw [hcon] at hlen
        simp at hlen
        omega
      have htake : (msgs.drop start).take (min (start + B) msgs.length - start)
          = (msgs.drop start).take B := by
        have hmin : min (start + B) msgs.length - start = min B (msgs.drop start).length := by
          simp only [List.length_drop]
          omega
        rw [hmin, take_min_length]
      simp only [publishBatchLoop]
      rw [if_pos hlt, htake, specChunks_eq_of_ne_nil B hB _ hne, processChunks]
      cases hbe : buildEntries marshal isFifo ((msgs.drop start).take B) with
      | error e => rfl
      | ok requestEntries =>
        cases hsend : send st.calls.length requestEntries with
        | error e => simp [hsend]
        | ok response =>
          have hlen_es : requestEntries.length = min B (msgs.length - start) := by
            have hspec := (buildEntries_ok_spec marshal isFifo _ _ hbe).1
            rw [hspec]
            simp [List.length_take, List.length_drop]
          have hstep : start + requestEntries.length = min (start + B) msgs.length := by
            rw [hlen_es]; omega
          have h1' : min (start + B) msgs.length ≤ msgs.length := Nat.min_le_right _ _
          have h2' : msgs.length - min (start + B) msgs.length < fuel := by omega
          have hdrop2 : (msgs.drop start).drop B = msgs.drop (min (start + B) msgs.length) := by
            rw [List.drop_drop]
            rcases Nat.le_total (start + B) msgs.length with hc | hc
            · rw [Nat.min_eq_left hc]
            · rw [Nat.min_eq_right hc,
                List.drop_eq_nil_of_le (by omega : msgs.length ≤ start + B),
                List.drop_eq_nil_of_le (le_refl msgs.length)]
          simp only [hsend]
          rw [hstep, ih (min (start + B) msgs.length) (updateState st requestEntries response)
            h1' h2', hdrop2]
    · have hstart : start = msgs.length := by omega
      simp only [publishBatchLoop]
      rw [if_neg hlt, List.drop_eq_nil_of_le (by omega : msgs.length ≤ start),
        specChunks_nil, processChunks]

theorem PublishBatch_eq_processChunks (marshal : α → Except String String)
    (send : Nat → List PublishBatchRequestEntry → Except String PublishBatchOutput)
    (topicArn : String) (msgs : List (MessageT α)) :
    PublishBatch marshal send topicArn msgs
      = some (processChunks marshal send (containsFifo topicArn) batchState0
          (specChunks MaxBatchSize msgs)) := by
  have h := publishBatchLoop_eq_processChunks marshal send (containsFifo topicArn) MaxBatchSize
    (by norm_num [MaxBatchSize]) msgs (msgs.length + 1) 0 batchState0 (Nat.zero_le _) (by omega)
  simpa [PublishBatch] using h

theorem processChunks_ok (marshal : α → Except String String)
    (send : Nat → List PublishBatchRequestEntry → Except String PublishBatchOutput)
    (isFifo : Bool) :
    ∀ (chunks : List (List (MessageT α))) (st : BatchState),
      (∀ c ∈ chunks, ∀ m ∈ c, (marshal m.Data).isOk = true) →
      (∀ i es, i < st.calls.length + chunks.length → (send i es).isOk = true) →
      (processChunks marshal send isFifo st chunks).err = none ∧
      (processChunks marshal send isFifo st chunks).calls.map
          (List.map PublishBatchRequestEntry.Id)
        = st.calls.map (List.map PublishBatchRequestEntry.Id)
            ++ chunks.map (List.map MessageT.ID) ∧
      (processChunks marshal send isFifo st chunks).calls.length
        = st.calls.length + chunks.length := by
  intro chunks
  induction chunks with
  | nil =>
    intro st h1 h2
    rw [processChunks]
    simp
  | cons c rest ih =>
    intro st h1 h2
    obtain ⟨es, hes⟩ := buildEntries_ok_of_forall marshal isFifo c
      (h1 c (List.mem_cons_self c rest))
    obtain ⟨o, ho⟩ : ∃ o, send st.calls.length es = .ok o := by
      have hok := h2 st.calls.length es (by simp only [List.length_cons]; omega)
      cases hs : send st.calls.length es with
      | error e => rw [hs] at hok; simp [Except.isOk, Except.toBool] at hok
      | ok o => exact ⟨o, rfl⟩
    rw [processChunks]
    simp only [hes, ho]
    have hcalls : (updateState st es o).calls = st.calls ++ [es] := rfl
    obtain ⟨e1, e2, e3⟩ := ih (updateState st es o)
      (fun c0 hc0 m hm => h1 c0 (List.mem_cons_of_mem c hc0) m hm)
      (fun i es0 hi => h2 i es0 (by
        rw [hcalls] at hi
        simp only [List.length_append, List.length_cons, List.length_nil] at hi ⊢
        omega))
    have hid := (buildEntries_ok_spec marshal isFifo c es hes).2.1
    refine ⟨e1, ?_, ?_⟩
    · rw [e2, hcalls]
      simp [hid]
    · rw [e3, hcalls]
      simp only [List.length_append, List.length_cons, List.length_nil]
      omega

/-- C2: for every input list in which every payload serializes successfully
and every chunk submission succeeds, `PublishBatch` issues exactly
`ceil(N / MaxBatchSize)` submission calls, in input order (their entry ids
are exactly the input ids chunked consecutively), each carrying at most
`MaxBatchSize` entries; in particular 25 messages are submitted in 3 calls
of sizes 10, 10 and 5. -/
theorem C2_publishBatch_chunking :
    (∀ (α : Type) (marshal : α → Except String String)
        (send : Nat → List PublishBatchRequestEntry → Except String PublishBatchOutput)
        (topicArn : String) (msgs : List (MessageT α)),
      (∀ m ∈ msgs, (marshal m.Data).isOk = true) →
      (∀ i es, (send i es).isOk = true) →
      (PublishBatch marshal send topicArn msgs).map
          (fun r => (r.err, r.calls.map (List.map PublishBatchRequestEntry.Id)))
        = some (none, (specChunks MaxBatchSize msgs).map (List.map MessageT.ID)) ∧
      (PublishBatch marshal send topicArn msgs).map (fun r => r.calls.length)
        = some ((msgs.length + MaxBatchSize - 1) / MaxBatchSize) ∧
      ∀ r, PublishBatch marshal send topicArn msgs = some r →
        ∀ c ∈ r.calls, c.length ≤ MaxBatchSize)
    ∧ (∀ (α : Type) (msgs : List (MessageT α)),
        (specChunks MaxBatchSize msgs).flatten = msgs ∧
        ∀ c ∈ specChunks MaxBatchSize msgs, c.length ≤ MaxBatchSize)
    ∧ (PublishBatch marshalTriv sendTriv "t" msgs25).map (fun r => r.calls.map List.length)
        = some [10, 10, 5] := by
  refine ⟨?_, ?_, rfl⟩
  · intro α marshal send topicArn msgs hm hs
    have heq := PublishBatch_eq_processChunks marshal send topicArn msgs
    have hchunks_ok : ∀ c ∈ specChunks MaxBatchSize msgs, ∀ m ∈ c,
        (marshal m.Data).isOk = true := by
      intro c hc m hmem
      apply hm
      have hflat : m ∈ (specChunks MaxBatchSize msgs).flatten :=
        List.mem_flatten.mpr ⟨c, hc, hmem⟩
      rwa [flatten_specChunks] at hflat
    obtain ⟨e1, e2, e3⟩ := processChunks_ok marshal send (containsFifo topicArn)
      (specChunks MaxBatchSize msgs) batchState0 hchunks_ok (fun i es _ => hs i es)
    have e2' : ((processChunks marshal send (containsFifo topicArn) batchState0
          (specChunks MaxBatchSize msgs)).calls).map (List.map PublishBatchRequestEntry.Id)
        = (specChunks MaxBatchSize msgs).map (List.map MessageT.ID) := by
      rw [e2]
      have hc0 : batchState0.calls = [] := rfl
      rw [hc0, List.map_nil, List.nil_append]
    refine ⟨?_, ?_, ?_⟩
    · rw [heq, Option.map_some']
      exact congrArg some (by rw [e1, e2'])
    · rw [heq, Option.map_some']
      refine congrArg some ?_
      rw [e3]
      have hc0 : batchState0.calls = [] := rfl
      rw [hc0, List.length_nil, Nat.zero_add]
      exact length_specChunks MaxBatchSize (by norm_num [MaxBatchSize]) msgs
    · intro r hr c hc
      rw [heq] at hr
      cases hr
      have hmem : c.map PublishBatchRequestEntry.Id
          ∈ (specChunks MaxBatchSize msgs).map (List.map MessageT.ID) := by
        rw [← e2']
        exact List.mem_map_of_mem _ hc
      obtain ⟨c0, hc0, hcc⟩ := List.mem_map.mp hmem
      have hlen : c.length = c0.length := by
        have hl := congrArg List.length hcc
        simpa using hl.symm
      rw [hlen]
      exact length_le_of_mem_specChunks MaxBatchSize (by norm_num [MaxBatchSize]) msgs c0 hc0
  · intro α msgs
    exact ⟨flatten_specChunks _ _,
      length_le_of_mem_specChunks MaxBatchSize (by norm_num [MaxBatchSize]) msgs⟩

/-- Witness for C2 at a concrete input: the hypotheses hold for the trivial
serializer and transport on the 25-message scenario list. -/
theorem C2_witness :
    (PublishBatch marshalTriv sendTriv "t" msgs25).map (fun r => r.calls.length)
      = some ((msgs25.length + MaxBatchSize - 1) / MaxBatchSize) :=
  (C2_publishBatch_chunking.1 Unit marshalTriv sendTriv "t" msgs25
    (fun _ _ => rfl) (fun _ _ => rfl)).2.1

theorem processChunks_cons_ok {marshal : α → Except String String}
    {send : Nat → List PublishBatchRequestEntry → Except String PublishBatchOutput}
    {isFifo : Bool} {st : BatchState} {c : List (MessageT α)}
    {rest : List (List (MessageT α))} {es : List PublishBatchRequestEntry}
    {o : PublishBatchOutput}
    (hbe : buildEntries marshal isFifo c = .ok es)
    (ho : send st.calls.length es = .ok o) :
    processChunks marshal send isFifo st (c :: rest)
      = processChunks marshal send isFifo (updateState st es o) rest := by
  rw [processChunks]
  simp only [hbe, ho]

theorem processChunks_cons_err {marshal : α → Except String String}
    {send : Nat → List PublishBatchRequestEntry → Except String PublishBatchOutput}
    {isFifo : Bool} {st : BatchState} {c : List (MessageT α)}
    {rest : List (List (MessageT α))} {e : String}
    (hbe : buildEntries marshal isFifo c = .error e) :
    processChunks marshal send isFifo st (c :: rest) = { st with err := some e } := by
  rw [processChunks]
  simp only [hbe]

theorem processChunks_marshal_error (marshal : α → Except String String)
    (send : Nat → List PublishBatchRequestEntry → Except String PublishBatchOutput)
    (isFifo : Bool) :
    ∀ (n : Nat) (pre : List (MessageT α)) (bad : MessageT α) (post : List (MessageT α))
      (e : String) (st : BatchState),
      pre.length ≤ n →
      (∀ m ∈ pre, (marshal m.Data).isOk = true) →
      marshal bad.Data = .error e →
      (∀ i es, st.calls.length ≤ i → i < st.calls.length + pre.length / MaxBatchSize →
        (send i es).isOk = true) →
      processChunks marshal send isFifo st (specChunks MaxBatchSize (pre ++ bad :: post))
        = { processChunks marshal send isFifo st
              ((specChunks MaxBatchSize (pre ++ bad :: post)).take
                (pre.length / MaxBatchSize))
            with err := some e } := by
  have hB : 1 ≤ MaxBatchSize := by norm_num [MaxBatchSize]
  have hB0 : 0 < MaxBatchSize := hB
  intro n
  induction n with
  | zero =>
    intro pre bad post e st hn h1 hbad h2
    have hpre : pre = [] := List.eq_nil_of_length_eq_zero (by omega)
    subst hpre
    have hk : ([] : List (MessageT α)).length / MaxBatchSize = 0 := by simp
    rw [hk, List.take_zero, List.nil_append]
    rw [specChunks_cons]
    rw [processChunks_cons_err (by rw [buildEntries, hbad])]
    rfl
  | succ n ih =>
    intro pre bad post e st hn h1 hbad h2
    by_cases hlt : pre.length < MaxBatchSize
    · -- the failing message sits in the very first chunk
      have hk : pre.length / MaxBatchSize = 0 := Nat.div_eq_of_lt hlt
      have hne : pre ++ bad :: post ≠ [] := by
        intro hcon
        have := congrArg List.length hcon
        simp at this
      have hc0 : (pre ++ bad :: post).take MaxBatchSize
          = pre ++ bad :: post.take (MaxBatchSize - pre.length - 1) := by
        rw [List.take_append_eq_append_take,
          List.take_of_length_le (by omega : pre.length ≤ MaxBatchSize)]
        obtain ⟨j, hj⟩ : ∃ j, MaxBatchSize - pre.length = j + 1 :=
          ⟨MaxBatchSize - pre.length - 1, by omega⟩
        rw [hj, List.take_succ_cons]
        simp only [Nat.add_sub_cancel]
      rw [hk, List.take_zero]
      rw [specChunks_eq_of_ne_nil MaxBatchSize hB _ hne, hc0]
      rw [processChunks_cons_err (buildEntries_error_of marshal isFifo pre bad _ e h1 hbad)]
      rfl
    · -- the first chunk lies entirely inside `pre`
      push_neg at hlt
      have hne : pre ++ bad :: post ≠ [] := by
        intro hcon
        have := congrArg List.length hcon
        simp at this
      have hc0 : (pre ++ bad :: post).take MaxBatchSize = pre.take MaxBatchSize := by
        rw [List.take_append_eq_append_take,
          (by omega : MaxBatchSize - pre.length = 0), List.take_zero, List.append_nil]
      have hdropm : (pre ++ bad :: post).drop MaxBatchSize
          = pre.drop MaxBatchSize ++ bad :: post := by
        rw [List.drop_append_eq_append_drop,
          (by omega : MaxBatchSize - pre.length = 0), List.drop_zero]
      obtain ⟨es, hes⟩ := buildEntries_ok_of_forall marshal isFifo (pre.take MaxBatchSize)
        (fun m hm => h1 m (List.take_subset _ _ hm))
      have hk1 : 1 ≤ pre.length / MaxBatchSize := (Nat.one_le_div_iff hB0).mpr hlt
      obtain ⟨o, ho⟩ : ∃ o, send st.calls.length es = .ok o := by
        have hok := h2 st.calls.length es le_rfl (by omega)
        cases hs : send st.calls.length es with
        | error e0 => rw [hs] at hok; simp [Except.isOk, Except.toBool] at hok
        | ok o => exact ⟨o, rfl⟩
      have hkdrop : (pre.drop MaxBatchSize).length / MaxBatchSize
          = pre.length / MaxBatchSize - 1 := by
        rw [List.length_drop]
        have he : pre.length - MaxBatchSize + MaxBatchSize = pre.length := by omega
        have := Nat.add_div_right (pre.length - MaxBatchSize) hB0
        rw [he] at this
        omega
      have hcalls1 : (updateState st es o).calls.length = st.calls.length + 1 := by
        show (st.calls ++ [es]).length = st.calls.length + 1
        simp
      have h2' : ∀ i es0, (updateState st es o).calls.length ≤ i →
          i < (updateState st es o).calls.length
              + (pre.drop MaxBatchSize).length / MaxBatchSize →
          (send i es0).isOk = true := by
        intro i es0 hle hi
        rw [hcalls1] at hle hi
        rw [hkdrop] at hi
        exact h2 i es0 (by omega) (by omega)
      have hrec := ih (pre.drop MaxBatchSize) bad post e (updateState st es o)
        (by rw [List.length_drop]; omega)
        (fun m hm => h1 m (List.drop_subset _ _ hm))
        hbad h2'
      rw [specChunks_eq_of_ne_nil MaxBatchSize hB _ hne, hc0]
      rw [processChunks_cons_ok hes ho, hdropm, hrec]
      obtain ⟨j, hj⟩ : ∃ j, pre.length / MaxBatchSize = j + 1 :=
        ⟨pre.length / MaxBatchSize - 1, by omega⟩
      rw [hkdrop, hj, List.take_succ_cons, processChunks_cons_ok hes ho]
      simp only [Nat.add_sub_cancel]

/-- C3: if serializing some message fails during `PublishBatch` (the first
failing message sits after `pre`, whose messages all serialize), the call
returns the results and counts accumulated from the `pre.length / MaxBatchSize`
previously completed chunks together with the serialization error as the
fatal error, and neither the failing chunk nor any later chunk is ever
submitted: the submission trace is exactly the truncated chunk list's. -/
theorem C3_serialization_abort :
    ∀ (α : Type) (marshal : α → Except String String)
      (send : Nat → List PublishBatchRequestEntry → Except String PublishBatchOutput)
      (topicArn : String) (pre post : List (MessageT α)) (bad : MessageT α) (e : String),
      (∀ m ∈ pre, (marshal m.Data).isOk = true) →
      marshal bad.Data = .error e →
      (∀ i es, i < pre.length / MaxBatchSize → (send i es).isOk = true) →
      PublishBatch marshal send topicArn (pre ++ bad :: post)
        = some { processChunks marshal send (containsFifo topicArn) batchState0
              ((specChunks MaxBatchSize (pre ++ bad :: post)).take
                (pre.length / MaxBatchSize))
            with err := some e } ∧
      (PublishBatch marshal send topicArn (pre ++ bad :: post)).map (fun r => r.calls.length)
        = some (pre.length / MaxBatchSize) := by
  intro α marshal send topicArn pre post bad e h1 hbad h2
  have hB : 1 ≤ MaxBatchSize := by norm_num [MaxBatchSize]
  have hB0 : 0 < MaxBatchSize := hB
  have hsz : batchState0.calls.length = 0 := rfl
  have key := processChunks_marshal_error marshal send (containsFifo topicArn)
    pre.length pre bad post e batchState0 le_rfl h1 hbad
    (fun i es hle hi => h2 i es (by rw [hsz, Nat.zero_add] at hi; exact hi))
  have hmain : PublishBatch marshal send topicArn (pre ++ bad :: post)
      = some { processChunks marshal send (containsFifo topicArn) batchState0
            ((specChunks MaxBatchSize (pre ++ bad :: post)).take
              (pre.length / MaxBatchSize))
          with err := some e } := by
    rw [PublishBatch_eq_processChunks, key]
  refine ⟨hmain, ?_⟩
  rw [hmain, Option.map_some']
  refine congrArg some ?_
  show (processChunks marshal send (containsFifo topicArn) batchState0
      ((specChunks MaxBatchSize (pre ++ bad :: post)).take
        (pre.length / MaxBatchSize))).calls.length
    = pre.length / MaxBatchSize
  have hsub : ∀ c ∈ (specChunks MaxBatchSize (pre ++ bad :: post)).take
      (pre.length / MaxBatchSize), ∀ m ∈ c, (marshal m.Data).isOk = true := by
    intro c hc m hm
    have hmem : m ∈ ((specChunks MaxBatchSize (pre ++ bad :: post)).take
        (pre.length / MaxBatchSize)).flatten :=
      List.mem_flatten.mpr ⟨c, hc, hm⟩
    rw [flatten_take_specChunks MaxBatchSize hB _ (pre.length / MaxBatchSize)] at hmem
    have hkB : pre.length / MaxBatchSize * MaxBatchSize ≤ pre.length :=
      Nat.div_mul_le_self _ _
    have htakepre : (pre ++ bad :: post).take (pre.length / MaxBatchSize * MaxBatchSize)
        = pre.take (pre.length / MaxBatchSize * MaxBatchSize) := by
      rw [List.take_append_eq_append_take,
        (by omega : pre.length / MaxBatchSize * MaxBatchSize - pre.length = 0),
        List.take_zero, List.append_nil]
    rw [htakepre] at hmem
    exact h1 m (List.take_subset _ _ hmem)
  have hlen_take : ((specChunks MaxBatchSize (pre ++ bad :: post)).take
      (pre.length / MaxBatchSize)).length = pre.length / MaxBatchSize := by
    rw [List.length_take]
    have hlen_chunks : (specChunks MaxBatchSize (pre ++ bad :: post)).length
        = ((pre ++ bad :: post).length + MaxBatchSize - 1) / MaxBatchSize :=
      length_specChunks MaxBatchSize hB _
    have hstep : (pre.length + MaxBatchSize) / MaxBatchSize
        = pre.length / MaxBatchSize + 1 := Nat.add_div_right _ hB0
    have hmono : (pre.length + MaxBatchSize) / MaxBatchSize
        ≤ ((pre ++ bad :: post).length + MaxBatchSize - 1) / MaxBatchSize := by
      apply Nat.div_le_div_right
      simp only [List.length_append, List.length_cons]
      omega
    rw [hstep] at hmono
    rw [hlen_chunks]
    omega
  obtain ⟨f1, f2, f3⟩ := processChunks_ok marshal send (containsFifo topicArn)
    ((specChunks MaxBatchSize (pre ++ bad :: post)).take (pre.length / MaxBatchSize))
    batchState0 hsub
    (fun i es hi => h2 i es (by rw [hsz, Nat.zero_add, hlen_take] at hi; exact hi))
  rw [f3, hsz, Nat.zero_add, hlen_take]

/-- Witness for C3 at a concrete input: a single-message batch whose
payload fails to serialize aborts with that error and submits nothing. -/
theorem C3_witness :
    PublishBatch marshalFail sendTriv "t"
        ([] ++ ({ ID := "a", Data := () } : MessageT Unit) :: [])
      = some { processChunks marshalFail sendTriv (containsFifo "t") batchState0
            ((specChunks MaxBatchSize
                ([] ++ ({ ID := "a", Data := () } : MessageT Unit) :: [])).take
              (([] : List (MessageT Unit)).length / MaxBatchSize))
          with err := some "boom" } :=
  (C3_serialization_abort Unit marshalFail sendTriv "t" [] [] { ID := "a", Data := () }
    "boom" (fun m hm => absurd hm (List.not_mem_nil m)) rfl
    (fun i es hi => absurd hi (by simp))).1

theorem processChunks_cons_sendErr {marshal : α → Except String String}
    {send : Nat → List PublishBatchRequestEntry → Except String PublishBatchOutput}
    {isFifo : Bool} {st : BatchState} {c : List (MessageT α)}
    {rest : List (List (MessageT α))} {es : List PublishBatchRequestEntry} {e : String}
    (hbe : buildEntries marshal isFifo c = .ok es)
    (ho : send st.calls.length es = .error e) :
    processChunks marshal send isFifo st (c :: rest)
      = { st with calls := st.calls ++ [es], err := some e } := by
  rw [processChunks]
  simp only [hbe, ho]

theorem processChunks_groupId (marshal : α → Except String String)
    (send : Nat → List PublishBatchRequestEntry → Except String PublishBatchOutput)
    (isFifo : Bool) :
    ∀ (chunks : List (List (MessageT α))) (st : BatchState),
      (∀ c ∈ st.calls, ∀ ent ∈ c,
        ent.MessageGroupId = (if isFifo then some "default" else none)) →
      ∀ c ∈ (processChunks marshal send isFifo st chunks).calls, ∀ ent ∈ c,
        ent.MessageGroupId = (if isFifo then some "default" else none) := by
  intro chunks
  induction chunks with
  | nil =>
    intro st h
    rw [processChunks]
    exact h
  | cons c rest ih =>
    intro st h
    cases hbe : buildEntries marshal isFifo c with
    | error e =>
      rw [processChunks_cons_err hbe]
      exact h
    | ok es =>
      have hes_prop := (buildEntries_ok_spec marshal isFifo c es hbe).2.2
      cases ho : send st.calls.length es with
      | error e =>
        rw [processChunks_cons_sendErr hbe ho]
        intro c0 hc0 ent hent
        rcases List.mem_append.mp hc0 with hc0 | hc0
        · exact h c0 hc0 ent hent
        · rw [List.mem_singleton.mp hc0] at hent
          exact hes_prop ent hent
      | ok o =>
        rw [processChunks_cons_ok hbe ho]
        apply ih
        intro c0 hc0 ent hent
        have hc0 : c0 ∈ st.calls ++ [es] := hc0
        rcases List.mem_append.mp hc0 with hc0 | hc0
        · exact h c0 hc0 ent hent
        · rw [List.mem_singleton.mp hc0] at hent
          exact hes_prop ent hent

/-- C4: for the single `Publish` and for every `PublishBatch` submission,
if the configured topic ARN contains the substring "fifo" in any letter
case then every constructed entry carries the default group id, and if it
does not then no entry carries a group id.  The two sides of the
alternative are captured by the `if` on `containsFifo`. -/
theorem C4_fifo_group_id :
    (∀ (α : Type) (marshal : α → Except String String)
        (sendOne : PublishInput → Option String) (topicArn : String) (msg : α)
        (inp : PublishInput),
      (Publish marshal sendOne topicArn msg).1 = some inp →
      inp.MessageGroupId = (if containsFifo topicArn then some "default" else none))
    ∧ (∀ (α : Type) (marshal : α → Except String String)
        (send : Nat → List PublishBatchRequestEntry → Except String PublishBatchOutput)
        (topicArn : String) (msgs : List (MessageT α)) (r : BatchResult),
      PublishBatch marshal send topicArn msgs = some r →
      ∀ c ∈ r.calls, ∀ ent ∈ c,
        ent.MessageGroupId = (if containsFifo topicArn then some "default" else none)) := by
  constructor
  · intro α marshal sendOne topicArn msg inp h
    unfold Publish at h
    cases hm : marshal msg with
    | error e =>
      rw [hm] at h
      exact Option.noConfusion h
    | ok b =>
      rw [hm] at h
      by_cases hf : containsFifo topicArn = true
      · rw [if_pos hf]
        simp only [hf, if_true] at h
        obtain rfl := Option.some.inj h
        rfl
      · rw [if_neg hf]
        simp only [hf, if_false] at h
        obtain rfl := Option.some.inj h
        rfl
  · intro α marshal send topicArn msgs r h
    rw [PublishBatch_eq_processChunks] at h
    obtain rfl := (Option.some.inj h).symm
    exact processChunks_groupId marshal send (containsFifo topicArn)
      (specChunks MaxBatchSize msgs) batchState0
      (fun c hc => absurd hc (List.not_mem_nil c))

/-- Witness for C4 at concrete inputs: a FIFO-named topic attaches the
default group id to the constructed input, and the naming check evaluates
as expected on a FIFO-suffixed and a plain topic name. -/
theorem C4_witness :
    (Option.elim ((Publish marshalTriv sendOneTriv "MyTopic.FIFO" ()).1) False
      (fun inp => inp.MessageGroupId
        = (if containsFifo "MyTopic.FIFO" then some "default" else none)))
    ∧ containsFifo "MyTopic.FIFO" = true ∧ containsFifo "mytopic" = false := by
  refine ⟨?_, by decide, by decide⟩
  exact C4_fifo_group_id.1 Unit marshalTriv sendOneTriv "MyTopic.FIFO" () _ rfl

theorem Consume_ok_spec (cfg : SubConfig) :
    ∀ (s s' : SubscriberState) (k : Nat), Consume cfg s = .ok (s', k) →
      s.stopped = false ∧ s.consumed = false
        ∧ s' = { consumed := true, stopped := false } ∧ k = cfg.NumConsumers.toNat := by
  intro s s' k hc
  obtain ⟨c0, st0⟩ := s
  cases st0 with
  | true => simp [Consume] at hc
  | false =>
    cases c0 with
    | true => simp [Consume] at hc
    | false =>
      simp [Consume, numPollersSpawned] at hc
      exact ⟨rfl, rfl, hc.1.symm, hc.2.symm⟩

theorem subApply_consumed (cfg : SubConfig) (s : SubscriberState) (op : SubOp)
    (h : s.consumed = true) : (subApply cfg s op).consumed = true := by
  cases op with
  | consumeOp =>
    cases hc : Consume cfg s with
    | error e => simpa [subApply, hc] using h
    | ok r =>
      obtain ⟨_, hco, _, _⟩ := Consume_ok_spec cfg s r.1 r.2 (by rw [hc])
      rw [h] at hco
      cases hco
  | stopOp =>
    obtain ⟨c0, st0⟩ := s
    cases st0 <;> cases c0 <;> simp_all [subApply, Stop]

theorem foldl_subApply_consumed (cfg : SubConfig) :
    ∀ (ops : List SubOp) (s : SubscriberState), s.consumed = true →
      (ops.foldl (subApply cfg) s).consumed = true := by
  intro ops
  induction ops with
  | nil => intro s h; exact h
  | cons op rest ih =>
    intro s h
    exact ih _ (subApply_consumed cfg s op h)

/-- C8: at most one `Consume` ever succeeds on a subscriber: a successful
`Consume` reports exactly `NumConsumers` spawned pollers and sets the
consumed latch; any `Consume` with the stopped latch set fails with
"already stopped", any `Consume` on a consumed but not stopped state fails
with "already running", and after one success every `Consume` reachable by
any further sequence of calls fails. -/
theorem C8_consume_once (cfg : SubConfig) (h : 1 ≤ cfg.NumConsumers) :
    (∀ (s s' : SubscriberState) (k : Nat), Consume cfg s = .ok (s', k) →
        (k : Int) = cfg.NumConsumers ∧ s'.consumed = true)
    ∧ (∀ s : SubscriberState, s.stopped = true →
        Consume cfg s = .error "SQS subscriber is already stopped")
    ∧ (∀ s : SubscriberState, s.stopped = false → s.consumed = true →
        Consume cfg s = .error "SQS subscriber is already running")
    ∧ (∀ (s s' : SubscriberState) (k : Nat) (ops : List SubOp),
        Consume cfg s = .ok (s', k) →
        ∀ res, ¬ (Consume cfg (ops.foldl (subApply cfg) s') = .ok res)) := by
  refine ⟨?_, ?_, ?_, ?_⟩
  · intro s s' k hc
    obtain ⟨_, _, hs', hk⟩ := Consume_ok_spec cfg s s' k hc
    refine ⟨?_, by rw [hs']⟩
    rw [hk]
    exact Int.toNat_of_nonneg (by omega)
  · intro s hs
    simp [Consume, hs]
  · intro s hs hco
    simp [Consume, hs, hco]
  · intro s s' k ops hc res hcon
    obtain ⟨_, _, hs', _⟩ := Consume_ok_spec cfg s s' k hc
    have hcons : (ops.foldl (subApply cfg) s').consumed = true :=
      foldl_subApply_consumed cfg ops s' (by rw [hs'])
    obtain ⟨_, hco2, _, _⟩ :=
      Consume_ok_spec cfg (ops.foldl (subApply cfg) s') res.1 res.2 (by rw [hcon])
    rw [hcons] at hco2
    cases hco2

/-- Witness for C8 at concrete inputs: with three configured consumers, a
fresh subscriber's `Consume` succeeds spawning three pollers, a consumed
subscriber's `Consume` fails with "already running", and a stopped one's
fails with "already stopped". -/
theorem C8_witness :
    Consume { MaxMessagesPerBatch := none, NumConsumers := 3 } initialSubscriberState
        = .ok ({ consumed := true, stopped := false }, 3)
    ∧ Consume { MaxMessagesPerBatch := none, NumConsumers := 3 }
        { consumed := true, stopped := false }
        = .error "SQS subscriber is already running"
    ∧ Consume { MaxMessagesPerBatch := none, NumConsumers := 3 }
        { consumed := false, stopped := true }
        = .error "SQS subscriber is already stopped" := by
  refine ⟨rfl, ?_, ?_⟩
  · exact (C8_consume_once _ (by norm_num)).2.2.1 _ rfl rfl
  · exact (C8_consume_once _ (by norm_num)).2.1 _ rfl

/-- C5 counterexample: with `NumConsumers = -1` the constructor leaves the
value at `-1` — it is neither replaced by the default 3 nor at least 1,
because `defaultSubscriberConfig` tests only for an exact zero. -/
theorem C5_counterexample :
    (NewSubscriber ⟨none, -1⟩).1.NumConsumers = -1
    ∧ ¬ ((NewSubscriber ⟨none, -1⟩).1.NumConsumers = defaultNumConsumers)
    ∧ ¬ (1 ≤ (NewSubscriber ⟨none, -1⟩).1.NumConsumers) := by
  refine ⟨rfl, by decide, by decide⟩

/-- C5 amended: for every configuration with nonnegative `NumConsumers`,
construction yields an effective consumer count of at least 1, and an
exact zero falls back to the default 3; negative values are not corrected
(see the counterexample). -/
theorem C5_default_consumers (cfg : SubConfig) (h : 0 ≤ cfg.NumConsumers) :
    1 ≤ (NewSubscriber cfg).1.NumConsumers
    ∧ (cfg.NumConsumers = 0 →
        (NewSubscriber cfg).1.NumConsumers = defaultNumConsumers) := by
  constructor
  · show 1 ≤ (defaultSubscriberConfig cfg).NumConsumers
    unfold defaultSubscriberConfig
    by_cases h0 : cfg.NumConsumers = 0
    · simp [h0, defaultNumConsumers]
    · simp only [h0, if_false]
      omega
  · intro h0
    show (defaultSubscriberConfig cfg).NumConsumers = defaultNumConsumers
    unfold defaultSubscriberConfig
    simp [h0]

/-- Witness for C5 amended at a concrete input: `NumConsumers = 0` is
nonnegative, yields at least one consumer, and equals the default 3. -/
theorem C5_witness :
    1 ≤ (NewSubscriber ⟨none, 0⟩).1.NumConsumers
    ∧ (NewSubscriber ⟨none, 0⟩).1.NumConsumers = defaultNumConsumers :=
  ⟨(C5_default_consumers _ (by decide)).1,
   (C5_default_consumers _ (by decide)).2 rfl⟩

/-- C1: calling `Stop` on a freshly constructed subscriber — one on which
`Consume` never succeeded — does not return the "already stopped" error;
it sets the stopped latch and then blocks forever on the stop channel,
which has no sender.  This evidences the divergence between the code and
the claimed well-defined error. -/
theorem C1_stop_before_consume_blocks :
    (Stop (NewSubscriber ⟨none, 3⟩).2).1 = StopOutcome.blocksForever
    ∧ ¬ ((Stop (NewSubscriber ⟨none, 3⟩).2).1 = StopOutcome.alreadyStopped) := by
  refine ⟨rfl, by decide⟩

theorem forAttempt_backoffCounter (r : ℚ) (n : Nat) :
    forAttempt backoffCounter r n = backoffCounter.Min := by
  show forAttempt backoffCounter r n = 1000000000
  unfold forAttempt backoffCounter
  norm_num

/-- C6 counterexample: under the subscriber's configuration the computed
backoff duration never strictly exceeds the configured minimum, whatever
the number of consecutive failures — the negation of the claimed
geometric growth, caused by `Factor: 1`. -/
theorem C6_counterexample :
    ¬ ∃ n : Nat, backoffCounter.Min < forAttempt backoffCounter 1 n := by
  rintro ⟨n, hn⟩
  rw [forAttempt_backoffCounter 1 n] at hn
  exact lt_irrefl _ hn

/-- C6 amended: with the configured `Factor` of 1 the backoff duration is
constant: for every failure count and every jitter draw it equals the
configured minimum, hence stays (degenerately) clamped within
`[min, max]` and never exceeds the minimum. -/
theorem C6_constant_backoff (r : ℚ) (n : Nat) :
    forAttempt backoffCounter r n = backoffCounter.Min
    ∧ backoffCounter.Min ≤ forAttempt backoffCounter r n
    ∧ forAttempt backoffCounter r n ≤ backoffCounter.Max := by
  have h := forAttempt_backoffCounter r n
  refine ⟨h, le_of_eq h.symm, ?_⟩
  rw [h]
  show (1000000000 : ℚ) ≤ 30 * 1000000000
  norm_num

/-- C7 counterexample: after one fetch failure followed by a successful
fetch, the poller's backoff counter stands at 1, not at its base state 0 —
the loop never resets the counter on success. -/
theorem C7_counterexample :
    (pollerBackoffRun backoffCounter 1 [.fetchError, .fetchOk 1]).attempt = 1
    ∧ ¬ ((pollerBackoffRun backoffCounter 1 [.fetchError, .fetchOk 1]).attempt
          = backoffCounter.attempt) := by
  exact ⟨rfl, by decide⟩

/-- C7 amended: the poller's backoff counter is never reset: after any
sequence of fetch outcomes it equals the initial counter plus the total
number of failures (successes leave it untouched), and the sleep after a
failure is always computed from the current accumulated counter. -/
theorem C7_no_reset_on_success :
    (∀ (b : Backoff) (r : ℚ) (frs : List FetchResult),
      (pollerBackoffRun b r frs).attempt
        = b.attempt + frs.countP (fun fr => FetchResult.isError fr))
    ∧ (∀ (b : Backoff) (r : ℚ),
      (pollerBackoffStep b r .fetchError).1 = some (forAttempt b r b.attempt)) := by
  constructor
  · intro b r frs
    induction frs generalizing b with
    | nil => simp [pollerBackoffRun]
    | cons fr rest ih =>
      cases fr with
      | fetchError =>
        rw [pollerBackoffRun, ih]
        simp [pollerBackoffStep, Backoff.Duration, List.countP_cons, FetchResult.isError]
        omega
      | fetchOk kk =>
        rw [pollerBackoffRun, ih]
        simp [pollerBackoffStep, List.countP_cons, FetchResult.isError]
  · intro b r
    rfl

theorem mapInsert_keys (m : List (String × Option String)) (k : String) (v : Option String) :
    (mapInsert m k v).map Prod.fst
      = if k ∈ m.map Prod.fst then m.map Prod.fst else m.map Prod.fst ++ [k] := by
  induction m with
  | nil => simp [mapInsert]
  | cons p rest ih =>
    obtain ⟨k', v'⟩ := p
    by_cases hk : k' = k
    · subst hk
      simp [mapInsert]
    · simp only [mapInsert, if_neg hk, List.map_cons]
      rw [ih]
      by_cases hin : k ∈ rest.map Prod.fst
      · rw [if_pos hin, if_pos (List.mem_cons_of_mem _ hin)]
      · rw [if_neg hin, if_neg ?hnc, List.cons_append]
        case hnc =>
          intro hmem
          rcases List.mem_cons.mp hmem with h | h
          · exact hk h.symm
          · exact hin h

theorem mapInsert_keys_nodup (m : List (String × Option String)) (k : String)
    (v : Option String) (h : (m.map Prod.fst).Nodup) :
    ((mapInsert m k v).map Prod.fst).Nodup := by
  rw [mapInsert_keys]
  by_cases hin : k ∈ m.map Prod.fst
  · rw [if_pos hin]
    exact h
  · rw [if_neg hin]
    simp [List.nodup_append, h, hin]

theorem mapInsert_keys_subset (m : List (String × Option String)) (k : String)
    (v : Option String) :
    ∀ x ∈ (mapInsert m k v).map Prod.fst, x ∈ m.map Prod.fst ∨ x = k := by
  rw [mapInsert_keys]
  by_cases hin : k ∈ m.map Prod.fst
  · rw [if_pos hin]
    exact fun x hx => Or.inl hx
  · rw [if_neg hin]
    intro x hx
    rcases List.mem_append.mp hx with h | h
    · exact Or.inl h
    · exact Or.inr (List.mem_singleton.mp h)

theorem mapInsert_keys_mono (m : List (String × Option String)) (k : String)
    (v : Option String) :
    ∀ x ∈ m.map Prod.fst, x ∈ (mapInsert m k v).map Prod.fst := by
  rw [mapInsert_keys]
  by_cases hin : k ∈ m.map Prod.fst
  · rw [if_pos hin]
    exact fun x hx => hx
  · rw [if_neg hin]
    exact fun x hx => List.mem_append.mpr (Or.inl hx)

theorem mapInsert_mem_key (m : List (String × Option String)) (k : String)
    (v : Option String) : k ∈ (mapInsert m k v).map Prod.fst := by
  rw [mapInsert_keys]
  by_cases hin : k ∈ m.map Prod.fst
  · rw [if_pos hin]
    exact hin
  · rw [if_neg hin]
    exact List.mem_append.mpr (Or.inr (List.mem_singleton.mpr rfl))

theorem processFailedEntries_spec :
    ∀ (resp : List (Option BatchResultErrorEntry))
      (m : List (String × Option String)) (ec : Nat),
      (processFailedEntries resp m ec).2 = ec + (failedIdsOf resp).length
      ∧ (∀ x ∈ ((processFailedEntries resp m ec).1).map Prod.fst,
          x ∈ m.map Prod.fst ∨ x ∈ failedIdsOf resp)
      ∧ (∀ x ∈ m.map Prod.fst, x ∈ ((processFailedEntries resp m ec).1).map Prod.fst)
      ∧ (∀ x ∈ failedIdsOf resp, x ∈ ((processFailedEntries resp m ec).1).map Prod.fst)
      ∧ ((m.map Prod.fst).Nodup → (((processFailedEntries resp m ec).1).map Prod.fst).Nodup) := by
  intro resp
  induction resp with
  | nil =>
    intro m ec
    refine ⟨by simp [processFailedEntries, failedIdsOf], ?_, ?_, ?_, ?_⟩
    · exact fun x hx => Or.inl hx
    · exact fun x hx => hx
    · intro x hx
      simp [failedIdsOf] at hx
    · exact fun h => h
  | cons oe rest ih =>
    cases oe with
    | none =>
      intro m ec
      have h := ih m ec
      simpa [processFailedEntries, failedIdsOf, List.filterMap_cons] using h
    | some entry =>
      cases hid : entry.Id with
      | none =>
        intro m ec
        have h := ih m ec
        simp only [processFailedEntries, hid]
        simpa [failedIdsOf, List.filterMap_cons, hid] using h
      | some id =>
        intro m ec
        have hvf : failedIdsOf (some entry :: rest) = id :: failedIdsOf rest := by
          simp [failedIdsOf, List.filterMap_cons, hid]
        simp only [processFailedEntries, hid, hvf]
        obtain ⟨ih1, ih2, ih3, ih4, ih5⟩ :=
          ih (mapInsert m id (some (match entry.Message with
            | some s => s
            | none => GenericPublishError))) (ec + 1)
        refine ⟨by rw [ih1]; simp; omega, ?_, ?_, ?_, ?_⟩
        · intro x hx
          rcases ih2 x hx with h | h
          · rcases mapInsert_keys_subset m id _ x h with h2 | h2
            · exact Or.inl h2
            · exact Or.inr (by rw [h2]; exact List.mem_cons_self _ _)
          · exact Or.inr (List.mem_cons_of_mem _ h)
        · intro x hx
          exact ih3 x (mapInsert_keys_mono m id _ x hx)
        · intro x hx
          rcases List.mem_cons.mp hx with h | h
          · rw [h]
            exact ih3 id (mapInsert_mem_key m id _)
          · exact ih4 x h
        · intro hnd
          exact ih5 (mapInsert_keys_nodup m id _ hnd)

theorem processSuccessfulEntries_spec :
    ∀ (resp : List (Option PublishBatchResultEntry))
      (m : List (String × Option String)) (sc : Nat),
      (processSuccessfulEntries resp m sc).2 = sc + (successIdsOf resp).length
      ∧ (∀ x ∈ ((processSuccessfulEntries resp m sc).1).map Prod.fst,
          x ∈ m.map Prod.fst ∨ x ∈ successIdsOf resp)
      ∧ (∀ x ∈ m.map Prod.fst, x ∈ ((processSuccessfulEntries resp m sc).1).map Prod.fst)
      ∧ (∀ x ∈ successIdsOf resp, x ∈ ((processSuccessfulEntries resp m sc).1).map Prod.fst)
      ∧ ((m.map Prod.fst).Nodup →
          (((processSuccessfulEntries resp m sc).1).map Prod.fst).Nodup) := by
  intro resp
  induction resp with
  | nil =>
    intro m sc
    refine ⟨by simp [processSuccessfulEntries, successIdsOf], ?_, ?_, ?_, ?_⟩
    · exact fun x hx => Or.inl hx
    · exact fun x hx => hx
    · intro x hx
      simp [successIdsOf] at hx
    · exact fun h => h
  | cons oe rest ih =>
    cases oe with
    | none =>
      intro m sc
      have h := ih m sc
      simpa [processSuccessfulEntries, successIdsOf, List.filterMap_cons] using h
    | some entry =>
      cases hid : entry.Id with
      | none =>
        intro m sc
        have h := ih m sc
        simp only [processSuccessfulEntries, hid]
        simpa [successIdsOf, List.filterMap_cons, hid] using h
      | some id =>
        intro m sc
        have hvf : successIdsOf (some entry :: rest) = id :: successIdsOf rest := by
          simp [successIdsOf, List.filterMap_cons, hid]
        simp only [processSuccessfulEntries, hid, hvf]
        obtain ⟨ih1, ih2, ih3, ih4, ih5⟩ := ih (mapInsert m id none) (sc + 1)
        refine ⟨by rw [ih1]; simp; omega, ?_, ?_, ?_, ?_⟩
        · intro x hx
          rcases ih2 x hx with h | h
          · rcases mapInsert_keys_subset m id _ x h with h2 | h2
            · exact Or.inl h2
            · exact Or.inr (by rw [h2]; exact List.mem_cons_self _ _)
          · exact Or.inr (List.mem_cons_of_mem _ h)
        · intro x hx
          exact ih3 x (mapInsert_keys_mono m id _ x hx)
        · intro x hx
          rcases List.mem_cons.mp hx with h | h
          · rw [h]
            exact ih3 id (mapInsert_mem_key m id _)
          · exact ih4 x h
        · intro hnd
          exact ih5 (mapInsert_keys_nodup m id _ hnd)

theorem updateState_spec (st : BatchState) (es : List PublishBatchRequestEntry)
    (o : PublishBatchOutput) :
    (updateState st es o).errorCount = st.errorCount + validFailedCount o
    ∧ (updateState st es o).successCount = st.successCount + validSuccessCount o
    ∧ (∀ x ∈ (updateState st es o).publishResult.map Prod.fst,
        x ∈ st.publishResult.map Prod.fst ∨ x ∈ validIds o)
    ∧ (∀ x ∈ st.publishResult.map Prod.fst,
        x ∈ (updateState st es o).publishResult.map Prod.fst)
    ∧ (∀ x ∈ validIds o, x ∈ (updateState st es o).publishResult.map Prod.fst)
    ∧ ((st.publishResult.map Prod.fst).Nodup →
        ((updateState st es o).publishResult.map Prod.fst).Nodup)
    ∧ (updateState st es o).calls = st.calls ++ [es]
    ∧ (updateState st es o).outputs = st.outputs ++ [o] := by
  obtain ⟨f1, f2, f3, f4, f5⟩ :=
    processFailedEntries_spec o.Failed st.publishResult st.errorCount
  obtain ⟨s1, s2, s3, s4, s5⟩ := processSuccessfulEntries_spec o.Successful
    (processFailedEntries o.Failed st.publishResult st.errorCount).1 st.successCount
  have hpr : (updateState st es o).publishResult
      = (processSuccessfulEntries o.Successful
          (processFailedEntries o.Failed st.publishResult st.errorCount).1
          st.successCount).1 := rfl
  have hec : (updateState st es o).errorCount
      = (processFailedEntries o.Failed st.publishResult st.errorCount).2 := rfl
  have hsc : (updateState st es o).successCount
      = (processSuccessfulEntries o.Successful
          (processFailedEntries o.Failed st.publishResult st.errorCount).1
          st.successCount).2 := rfl
  refine ⟨by rw [hec, f1]; rfl, by rw [hsc, s1]; rfl, ?_, ?_, ?_, ?_, rfl, rfl⟩
  · intro x hx
    rw [hpr] at hx
    rcases s2 x hx with h | h
    · rcases f2 x h with h2 | h2
      · exact Or.inl h2
      · refine Or.inr ?_
        show x ∈ failedIdsOf o.Failed ++ successIdsOf o.Successful
        exact List.mem_append.mpr (Or.inl h2)
    · refine Or.inr ?_
      show x ∈ failedIdsOf o.Failed ++ successIdsOf o.Successful
      exact List.mem_append.mpr (Or.inr h)
  · intro x hx
    rw [hpr]
    exact s3 x (f3 x hx)
  · intro x hx
    rw [hpr]
    have hx2 : x ∈ failedIdsOf o.Failed ++ successIdsOf o.Successful := hx
    rcases List.mem_append.mp hx2 with h | h
    · exact s3 x (f4 x h)
    · exact s4 x h
  · intro hnd
    rw [hpr]
    exact s5 (f5 hnd)

theorem zip_append_left_single (a : List α) (b : List β) (x : α)
    (h : a.length = b.length) : (a ++ [x]).zip b = a.zip b := by
  induction a generalizing b with
  | nil =>
    cases b with
    | nil => rfl
    | cons z zs => simp at h
  | cons y ys ih =>
    cases b with
    | nil => simp at h
    | cons z zs =>
      simp only [List.cons_append, List.zip_cons_cons]
      rw [ih zs (by simpa using h)]

theorem zip_append_both_single (a : List α) (b : List β) (x : α) (y : β)
    (h : a.length = b.length) : (a ++ [x]).zip (b ++ [y]) = a.zip b ++ [(x, y)] := by
  induction a generalizing b with
  | nil =>
    cases b with
    | nil => rfl
    | cons z zs => simp at h
  | cons p ps ih =>
    cases b with
    | nil => simp at h
    | cons q qs =>
      simp only [List.cons_append, List.zip_cons_cons]
      rw [ih qs (by simpa using h)]

theorem processChunks_counts (marshal : α → Except String String)
    (send : Nat → List PublishBatchRequestEntry → Except String PublishBatchOutput)
    (isFifo : Bool) :
    ∀ (chunks : List (List (MessageT α))) (st : BatchState),
      (st.errorCount = (st.outputs.map validFailedCount).sum →
        (processChunks marshal send isFifo st chunks).errorCount
          = ((processChunks marshal send isFifo st chunks).outputs.map validFailedCount).sum)
      ∧ (st.successCount = (st.outputs.map validSuccessCount).sum →
        (processChunks marshal send isFifo st chunks).successCount
          = ((processChunks marshal send isFifo st chunks).outputs.map validSuccessCount).sum) := by
  intro chunks
  induction chunks with
  | nil =>
    intro st
    rw [processChunks]
    exact ⟨fun h => h, fun h => h⟩
  | cons c rest ih =>
    intro st
    cases hbe : buildEntries marshal isFifo c with
    | error e =>
      rw [processChunks_cons_err hbe]
      exact ⟨fun h => h, fun h => h⟩
    | ok es =>
      cases ho : send st.calls.length es with
      | error e0 =>
        rw [processChunks_cons_sendErr hbe ho]
        exact ⟨fun h => h, fun h => h⟩
      | ok o =>
        rw [processChunks_cons_ok hbe ho]
        obtain ⟨u1, u2, _, _, _, _, _, u8⟩ := updateState_spec st es o
        obtain ⟨ih1, ih2⟩ := ih (updateState st es o)
        constructor
        · intro h
          apply ih1
          rw [u1, u8, h]
          simp
        · intro h
          apply ih2
          rw [u2, u8, h]
          simp

theorem processChunks_keys_in_outputs (marshal : α → Except String String)
    (send : Nat → List PublishBatchRequestEntry → Except String PublishBatchOutput)
    (isFifo : Bool) :
    ∀ (chunks : List (List (MessageT α))) (st : BatchState),
      (∀ x ∈ st.publishResult.map Prod.fst, x ∈ (st.outputs.map validIds).flatten) →
      ∀ x ∈ (processChunks marshal send isFifo st chunks).publishResult.map Prod.fst,
        x ∈ ((processChunks marshal send isFifo st chunks).outputs.map validIds).flatten := by
  intro chunks
  induction chunks with
  | nil =>
    intro st h
    rw [processChunks]
    exact h
  | cons c rest ih =>
    intro st h
    cases hbe : buildEntries marshal isFifo c with
    | error e =>
      rw [processChunks_cons_err hbe]
      exact h
    | ok es =>
      cases ho : send st.calls.length es with
      | error e0 =>
        rw [processChunks_cons_sendErr hbe ho]
        exact h
      | ok o =>
        rw [processChunks_cons_ok hbe ho]
        obtain ⟨_, _, u3, _, _, _, _, u8⟩ := updateState_spec st es o
        apply ih (updateState st es o)
        intro x hx
        rw [u8]
        rcases u3 x hx with hx2 | hx2
        · have hh := h x hx2
          rw [List.map_append, List.flatten_append]
          exact List.mem_append.mpr (Or.inl hh)
        · rw [List.map_append, List.flatten_append]
          refine List.mem_append.mpr (Or.inr ?_)
          simpa using hx2

theorem processChunks_keys_in_ids (marshal : α → Except String String)
    (send : Nat → List PublishBatchRequestEntry → Except String PublishBatchOutput)
    (isFifo : Bool) (S : List String)
    (hsend : ∀ i es o, send i es = .ok o →
      ∀ id ∈ validIds o, id ∈ es.map PublishBatchRequestEntry.Id) :
    ∀ (chunks : List (List (MessageT α))) (st : BatchState),
      (∀ c ∈ chunks, ∀ m ∈ c, m.ID ∈ S) →
      (∀ x ∈ st.publishResult.map Prod.fst, x ∈ S) →
      ((∀ x ∈ (processChunks marshal send isFifo st chunks).publishResult.map Prod.fst,
        x ∈ S)
      ∧ ((st.publishResult.map Prod.fst).Nodup →
          ((processChunks marshal send isFifo st chunks).publishResult.map Prod.fst).Nodup)) := by
  intro chunks
  induction chunks with
  | nil =>
    intro st hc h
    rw [processChunks]
    exact ⟨h, fun hd => hd⟩
  | cons c rest ih =>
    intro st hc h
    cases hbe : buildEntries marshal isFifo c with
    | error e =>
      rw [processChunks_cons_err hbe]
      exact ⟨h, fun hd => hd⟩
    | ok es =>
      cases ho : send st.calls.length es with
      | error e0 =>
        rw [processChunks_cons_sendErr hbe ho]
        exact ⟨h, fun hd => hd⟩
      | ok o =>
        rw [processChunks_cons_ok hbe ho]
        obtain ⟨_, _, u3, _, _, u6, _, _⟩ := updateState_spec st es o
        have hid := (buildEntries_ok_spec marshal isFifo c es hbe).2.1
        have hnew : ∀ x ∈ (updateState st es o).publishResult.map Prod.fst, x ∈ S := by
          intro x hx
          rcases u3 x hx with hx2 | hx2
          · exact h x hx2
          · have hin_es : x ∈ es.map PublishBatchRequestEntry.Id :=
              hsend st.calls.length es o ho x hx2
            rw [hid] at hin_es
            obtain ⟨m, hm, hmx⟩ := List.mem_map.mp hin_es
            rw [← hmx]
            exact hc c (List.mem_cons_self c rest) m hm
        obtain ⟨w1, w2⟩ := ih (updateState st es o)
          (fun c0 hc0 m hm => hc c0 (List.mem_cons_of_mem c hc0) m hm) hnew
        exact ⟨w1, fun hd => w2 (u6 hd)⟩

theorem processChunks_coverage (marshal : α → Except String String)
    (send : Nat → List PublishBatchRequestEntry → Except String PublishBatchOutput)
    (isFifo : Bool)
    (hsend : ∀ i es o, send i es = .ok o → ∀ ent ∈ es, ent.Id ∈ validIds o) :
    ∀ (chunks : List (List (MessageT α))) (st : BatchState),
      st.calls.length = st.outputs.length →
      (∀ p ∈ st.calls.zip st.outputs, ∀ ent ∈ p.1,
        ent.Id ∈ st.publishResult.map Prod.fst) →
      ∀ p ∈ (processChunks marshal send isFifo st chunks).calls.zip
          (processChunks marshal send isFifo st chunks).outputs,
        ∀ ent ∈ p.1,
          ent.Id ∈ (processChunks marshal send isFifo st chunks).publishResult.map Prod.fst := by
  intro chunks
  induction chunks with
  | nil =>
    intro st hlen h
    rw [processChunks]
    exact h
  | cons c rest ih =>
    intro st hlen h
    cases hbe : buildEntries marshal isFifo c with
    | error e =>
      rw [processChunks_cons_err hbe]
      exact h
    | ok es =>
      cases ho : send st.calls.length es with
      | error e0 =>
        rw [processChunks_cons_sendErr hbe ho]
        intro p hp ent hent
        rw [zip_append_left_single st.calls st.outputs es hlen] at hp
        exact h p hp ent hent
      | ok o =>
        rw [processChunks_cons_ok hbe ho]
        obtain ⟨_, _, _, u4, u5, _, u7, u8⟩ := updateState_spec st es o
        apply ih (updateState st es o)
        · rw [u7, u8]
          simp [hlen]
        · intro p hp ent hent
          rw [u7, u8, zip_append_both_single st.calls st.outputs es o hlen] at hp
          rcases List.mem_append.mp hp with hp2 | hp2
          · exact u4 _ (h p hp2 ent hent)
          · rw [List.mem_singleton.mp hp2] at hent
            exact u5 _ (hsend st.calls.length es o ho ent hent)

/-- C9 counterexample: with a transport whose response reports success for
an id ("b") that was never part of the input, the result map contains an
id not present in the input — the claim fails when quantified over
arbitrary transport responses. -/
theorem C9_counterexample :
    (PublishBatch marshalTriv sendForeign "t" msgs1).map
        (fun r => r.publishResult.map Prod.fst) = some ["b"]
    ∧ ¬ ("b" ∈ msgs1.map MessageT.ID) := by
  exact ⟨rfl, by decide⟩

/-- C9 amended: when every id a response mentions belongs to the submitted
chunk, the result map of `PublishBatch` never contains an id outside the
input and its size never exceeds the input length; when additionally every
submitted entry's id is mentioned by its response, every entry of every
successfully submitted chunk appears in the result map (as a null or error
value under its id). -/
theorem C9_result_map_wellbehaved :
    ∀ (α : Type) (marshal : α → Except String String)
      (send : Nat → List PublishBatchRequestEntry → Except String PublishBatchOutput)
      (topicArn : String) (msgs : List (MessageT α)),
      (∀ i es o, send i es = .ok o →
        ∀ id ∈ validIds o, id ∈ es.map PublishBatchRequestEntry.Id) →
      ∀ r, PublishBatch marshal send topicArn msgs = some r →
        (∀ x ∈ r.publishResult.map Prod.fst, x ∈ msgs.map MessageT.ID)
        ∧ r.publishResult.length ≤ msgs.length
        ∧ ((∀ i es o, send i es = .ok o → ∀ ent ∈ es, ent.Id ∈ validIds o) →
            ∀ p ∈ r.calls.zip r.outputs, ∀ ent ∈ p.1,
              ent.Id ∈ r.publishResult.map Prod.fst) := by
  intro α marshal send topicArn msgs hsend1 r hr
  rw [PublishBatch_eq_processChunks] at hr
  obtain rfl := (Option.some.inj hr).symm
  have hchunks : ∀ c ∈ specChunks MaxBatchSize msgs, ∀ m ∈ c,
      m.ID ∈ msgs.map MessageT.ID := by
    intro c hc m hm
    refine List.mem_map_of_mem _ ?_
    have hflat : m ∈ (specChunks MaxBatchSize msgs).flatten :=
      List.mem_flatten.mpr ⟨c, hc, hm⟩
    rwa [flatten_specChunks] at hflat
  have hbase : ∀ x ∈ batchState0.publishResult.map Prod.fst, x ∈ msgs.map MessageT.ID := by
    intro x hx
    simp [batchState0] at hx
  obtain ⟨w1, w2⟩ := processChunks_keys_in_ids marshal send (containsFifo topicArn)
    (msgs.map MessageT.ID) hsend1 (specChunks MaxBatchSize msgs) batchState0 hchunks hbase
  have hnodup := w2 (by simp [batchState0])
  refine ⟨w1, ?_, ?_⟩
  · have hle := (List.subperm_of_subset hnodup w1).length_le
    rw [List.length_map, List.length_map] at hle
    exact hle
  · intro hsend2
    exact processChunks_coverage marshal send (containsFifo topicArn) hsend2
      (specChunks MaxBatchSize msgs) batchState0 rfl
      (fun p hp => absurd hp (List.not_mem_nil p))

theorem successIdsOf_echo (es : List PublishBatchRequestEntry) :
    successIdsOf (es.map (fun ent => some ({ Id := some ent.Id } : PublishBatchResultEntry)))
      = es.map PublishBatchRequestEntry.Id := by
  induction es with
  | nil => rfl
  | cons e rest ih =>
    simp only [List.map_cons]
    unfold successIdsOf at ih ⊢
    rw [List.filterMap_cons]
    simp only [Option.some_bind]
    rw [ih]

theorem sendEcho_mentions_only_submitted :
    ∀ i es o, sendEcho i es = .ok o →
      ∀ id ∈ validIds o, id ∈ es.map PublishBatchRequestEntry.Id := by
  intro i es o ho id hid
  cases ho
  have hv : validIds { Failed := [],
                       Successful := es.map (fun ent => some { Id := some ent.Id }) }
      = es.map PublishBatchRequestEntry.Id := by
    show failedIdsOf [] ++ successIdsOf (es.map (fun ent => some { Id := some ent.Id }))
      = es.map PublishBatchRequestEntry.Id
    rw [successIdsOf_echo]
    rfl
  rwa [hv] at hid

theorem sendEcho_mentions_every_submitted :
    ∀ i es o, sendEcho i es = .ok o → ∀ ent ∈ es, ent.Id ∈ validIds o := by
  intro i es o ho ent hent
  cases ho
  have hv : validIds { Failed := [],
                       Successful := es.map (fun ent => some { Id := some ent.Id }) }
      = es.map PublishBatchRequestEntry.Id := by
    show failedIdsOf [] ++ successIdsOf (es.map (fun ent => some { Id := some ent.Id }))
      = es.map PublishBatchRequestEntry.Id
    rw [successIdsOf_echo]
    rfl
  rw [hv]
  exact List.mem_map_of_mem _ hent

/-- Witness for C9 amended at a concrete input: the echoing transport
satisfies both response hypotheses, and on the one-message input the
result map's size is bounded by the input length. -/
theorem C9_witness :
    Option.elim (PublishBatch marshalTriv sendEcho "t" msgs1) False
      (fun r => r.publishResult.length ≤ msgs1.length) := by
  have h := C9_result_map_wellbehaved Unit marshalTriv sendEcho "t" msgs1
    sendEcho_mentions_only_submitted _ rfl
  exact h.2.1

/-- C10: `PublishBatch` skips response entries that are nil pointers or
have nil ids: the error and success counters equal the total number of
valid (non-nil pointer, non-nil id) failed respectively succeeded entries
across all processed responses — not the number of submitted entries —
and every id in the result map comes from some valid response entry. -/
theorem C10_nil_entries_skipped :
    ∀ (α : Type) (marshal : α → Except String String)
      (send : Nat → List PublishBatchRequestEntry → Except String PublishBatchOutput)
      (topicArn : String) (msgs : List (MessageT α)) (r : BatchResult),
      PublishBatch marshal send topicArn msgs = some r →
      r.errorCount = (r.outputs.map validFailedCount).sum
      ∧ r.successCount = (r.outputs.map validSuccessCount).sum
      ∧ ∀ x ∈ r.publishResult.map Prod.fst, x ∈ (r.outputs.map validIds).flatten := by
  intro α marshal send topicArn msgs r hr
  rw [PublishBatch_eq_processChunks] at hr
  obtain rfl := (Option.some.inj hr).symm
  obtain ⟨cc1, cc2⟩ := processChunks_counts marshal send (containsFifo topicArn)
    (specChunks MaxBatchSize msgs) batchState0
  refine ⟨cc1 rfl, cc2 rfl, ?_⟩
  exact processChunks_keys_in_outputs marshal send (containsFifo topicArn)
    (specChunks MaxBatchSize msgs) batchState0
    (fun x hx => absurd hx (by simp [batchState0]))

/-- Witness for C10 at a concrete input: a response with one nil entry
pointer and one nil-id entry on each side plus one valid success entry
yields an error counter of zero and a success counter of one. -/
theorem C10_witness :
    Option.elim (PublishBatch marshalTriv sendNils "t" msgs1) False
      (fun r => r.errorCount = (r.outputs.map validFailedCount).sum
        ∧ r.successCount = (r.outputs.map validSuccessCount).sum) := by
  have h := C10_nil_entries_skipped Unit marshalTriv sendNils "t" msgs1 _ rfl
  exact ⟨h.1, h.2.1⟩

end Htsqs
